import Mathlib

/-!
Verification of the fontTools font merger (`Lib/fontTools/merge.py`).

The Python source is shallowly embedded: Python dicts become association
lists where later entries win on lookup (mirroring `dict.update`
overwrite semantics), fallible code returns `Except`, and the one
in-place mutation (`Merger._mergeGlyphOrders`, and the glyph processing
in the `glyf` merger) becomes explicit state passing.
-/

namespace FontMerge

/-! ## Python `dict` model

A Python dict is modelled as a list of key/value pairs in insertion
order; `dict.update` appends the other dict's pairs, and lookup takes
the value of the last matching pair, so later updates override earlier
ones, exactly as in Python. -/

abbrev Dict (κ ν : Type) := List (κ × ν)

/-- Biased choice on `Option`: keep the first argument when present. -/
def oOr {ν : Type} (a b : Option ν) : Option ν :=
  match a with
  | some v => some v
  | none => b

/-- Dict lookup: the value of the last pair whose key matches. -/
def dget {κ ν : Type} [DecidableEq κ] (d : Dict κ ν) (k : κ) : Option ν :=
  match d with
  | [] => none
  | (k₁, v) :: rest => oOr (dget rest k) (if k₁ = k then some v else none)

/-- `d.update(e)` in Python: pairs of `e` override pairs of `d`. -/
def dictUpdate {κ ν : Type} (d e : Dict κ ν) : Dict κ ν := d ++ e

/-- The value for `k` coming from the latest dict in `ls` that defines
`k` (Python: folding `update` over `ls` in order). -/
def lastDefined {κ ν : Type} [DecidableEq κ] (ls : List (Dict κ ν)) (k : κ) : Option ν :=
  match ls with
  | [] => none
  | d :: rest => oOr (lastDefined rest k) (dget d k)

theorem oOr_none_right {ν : Type} (a : Option ν) : oOr a none = a := by
  cases a <;> rfl

theorem oOr_assoc {ν : Type} (a b c : Option ν) :
    oOr (oOr a b) c = oOr a (oOr b c) := by
  cases a <;> rfl

theorem dget_append {κ ν : Type} [DecidableEq κ] (d e : Dict κ ν) (k : κ) :
    dget (d ++ e) k = oOr (dget e k) (dget d k) := by
  induction d with
  | nil => simp [dget, oOr_none_right]
  | cons p rest ih =>
    obtain ⟨k₁, v⟩ := p
    simp only [List.cons_append, dget, List.append_eq, ih, oOr_assoc]

theorem dget_join {κ ν : Type} [DecidableEq κ] (ls : List (Dict κ ν)) (k : κ) :
    dget ls.flatten k = lastDefined ls k := by
  induction ls with
  | nil => rfl
  | cons d rest ih =>
    simp only [List.flatten_cons, lastDefined, dget_append, ih]

theorem foldl_dictUpdate {κ ν : Type} (ls : List (Dict κ ν)) (init : Dict κ ν) :
    ls.foldl (fun acc d => dictUpdate acc d) init = init ++ ls.flatten := by
  induction ls generalizing init with
  | nil => simp [List.flatten]
  | cons d rest ih =>
    rw [List.foldl_cons, ih, List.flatten_cons]
    simp [dictUpdate, List.append_assoc]

theorem lastDefined_isSome {κ ν : Type} [DecidableEq κ] (ls : List (Dict κ ν)) (k : κ) :
    (lastDefined ls k).isSome ↔ ∃ d ∈ ls, (dget d k).isSome := by
  induction ls with
  | nil => simp [lastDefined]
  | cons d rest ih =>
    simp only [lastDefined, List.mem_cons]
    cases h : lastDefined rest k with
    | some v =>
      simp only [oOr, Option.isSome_some, true_iff]
      have hsome : (lastDefined rest k).isSome := by rw [h]; rfl
      obtain ⟨d', hd', hs⟩ := ih.mp hsome
      exact ⟨d', Or.inr hd', hs⟩
    | none =>
      simp only [oOr]
      constructor
      · intro hs
        exact ⟨d, Or.inl rfl, hs⟩
      · rintro ⟨d', hd', hs⟩
        rcases hd' with rfl | hd'
        · exact hs
        · exfalso
          have : (lastDefined rest k).isSome := ih.mpr ⟨d', hd', hs⟩
          rw [h] at this
          exact Bool.noConfusion this

/-! ## Glyph-order unifier (`Merger._mergeGlyphOrders`)

The source renames every glyph: `glyphName += "#" + repr(n)` where `n`
is the 0-based font index, mutating each per-font glyph order in place
and appending each renamed name to the returned global order. -/

/-- The character for a decimal digit `d < 10`. -/
def decDigitChar : Nat → Char
  | 0 => '0' | 1 => '1' | 2 => '2' | 3 => '3' | 4 => '4'
  | 5 => '5' | 6 => '6' | 7 => '7' | 8 => '8' | _ => '9'

/-- Decimal digits of `n`, most significant first; fuel-driven so it
reduces in the kernel.  `pyReprAux (n+1) n` is total for fuel `> n`. -/
def pyReprAux : Nat → Nat → List Char
  | 0, _ => []
  | fuel+1, n =>
    if n < 10 then [decDigitChar n]
    else pyReprAux fuel (n / 10) ++ [decDigitChar (n % 10)]

/-- Python's `repr(n)` for a non-negative `int`: the decimal digits. -/
def pyRepr (n : Nat) : String := ⟨pyReprAux (n + 1) n⟩

/-- `glyphName + "#" + repr(n)`: the renamed glyph identifier for font
index `n`. -/
def rename (n : Nat) (glyphName : String) : String :=
  glyphName ++ "#" ++ pyRepr n

/-- The loop of `Merger._mergeGlyphOrders`: `n` is the enumeration
index, the accumulator `mega` collects the renamed names in order.  The
first component returned is the (mutated-in-place) per-font glyph
orders, the second the global order. -/
def mergeGlyphOrdersLoop : Nat → List (List String) → List String →
    List (List String) × List String
  | _, [], mega => ([], mega)
  | n, glyphOrder :: rest, mega =>
    let glyphOrder2 := glyphOrder.map (rename n)
    let r := mergeGlyphOrdersLoop (n + 1) rest (mega ++ glyphOrder2)
    (glyphOrder2 :: r.1, r.2)

/-- `Merger._mergeGlyphOrders(glyphOrders)`: returns the renamed
per-font orders (the in-place mutation made explicit) and the merged
global glyph order `mega`. -/
def mergeGlyphOrders (glyphOrders : List (List String)) :
    List (List String) × List String :=
  mergeGlyphOrdersLoop 0 glyphOrders []

/-- Value of a decimal digit character (inverse of `decDigitChar`). -/
def decDigitVal (c : Char) : Nat :=
  if c = '0' then 0 else if c = '1' then 1 else if c = '2' then 2
  else if c = '3' then 3 else if c = '4' then 4 else if c = '5' then 5
  else if c = '6' then 6 else if c = '7' then 7 else if c = '8' then 8
  else 9

/-- Read a big-endian decimal digit list back as a number. -/
def evalDigits (l : List Char) : Nat :=
  l.foldl (fun a c => a * 10 + decDigitVal c) 0

theorem decDigitVal_decDigitChar : ∀ d, d < 10 → decDigitVal (decDigitChar d) = d := by
  decide

theorem decDigitChar_ne_hash : ∀ d, d < 10 → decDigitChar d ≠ '#' := by
  decide

theorem evalDigits_append_singleton (l : List Char) (c : Char) :
    evalDigits (l ++ [c]) = evalDigits l * 10 + decDigitVal c := by
  simp [evalDigits, List.foldl_append]

theorem evalDigits_pyReprAux :
    ∀ fuel n, n < fuel → evalDigits (pyReprAux fuel n) = n := by
  intro fuel
  induction fuel with
  | zero => intro n h; omega
  | succ fuel ih =>
    intro n h
    by_cases h10 : n < 10
    · simp [pyReprAux, h10, evalDigits, decDigitVal_decDigitChar n h10]
    · have hdiv : n / 10 < fuel := by
        have : n / 10 < n := Nat.div_lt_self (by omega) (by omega)
        omega
      simp only [pyReprAux, if_neg h10, evalDigits_append_singleton, ih _ hdiv,
        decDigitVal_decDigitChar (n % 10) (Nat.mod_lt n (by omega))]
      omega

theorem mem_pyReprAux_ne_hash :
    ∀ fuel n c, c ∈ pyReprAux fuel n → c ≠ '#' := by
  intro fuel
  induction fuel with
  | zero => intro n c h; simp [pyReprAux] at h
  | succ fuel ih =>
    intro n c h
    by_cases h10 : n < 10
    · simp only [pyReprAux, if_pos h10, List.mem_singleton] at h
      subst h
      exact decDigitChar_ne_hash n h10
    · simp only [pyReprAux, if_neg h10, List.mem_append, List.mem_singleton] at h
      rcases h with h | h
      · exact ih _ _ h
      · subst h
        exact decDigitChar_ne_hash (n % 10) (Nat.mod_lt n (by omega))

theorem pyRepr_inj {n m : Nat} (h : (pyRepr n).data = (pyRepr m).data) : n = m := by
  have hd : pyReprAux (n + 1) n = pyReprAux (m + 1) m := h
  have h1 := evalDigits_pyReprAux (n + 1) n (by omega)
  rw [hd, evalDigits_pyReprAux (m + 1) m (by omega)] at h1
  omega

theorem hash_ne_mem_pyRepr {n : Nat} : '#' ∉ (pyRepr n).data := by
  intro h
  exact mem_pyReprAux_ne_hash (n + 1) n '#' h rfl

/-- Splitting at a separator absent from both tails is unambiguous
(stated on reversed tails, so induction runs along the tails). -/
theorem sepRev_inj :
    ∀ (d e x y : List Char), '#' ∉ d → '#' ∉ e →
      d ++ '#' :: x = e ++ '#' :: y → d = e ∧ x = y := by
  intro d
  induction d with
  | nil =>
    intro e x y _ he h
    cases e with
    | nil => simpa using h
    | cons c e' =>
      simp only [List.nil_append, List.cons_append, List.cons.injEq] at h
      obtain ⟨h1, h2⟩ := h
      subst h1
      exact absurd (List.mem_cons_self _ _) he
  | cons c d' ih =>
    intro e x y hd he h
    cases e with
    | nil =>
      simp only [List.cons_append, List.nil_append, List.cons.injEq] at h
      obtain ⟨h1, h2⟩ := h
      subst h1
      exact absurd (List.mem_cons_self _ _) hd
    | cons c' e' =>
      simp only [List.cons_append, List.cons.injEq] at h
      obtain ⟨rfl, h2⟩ := h
      have hd' : '#' ∉ d' := fun hm => hd (List.mem_cons_of_mem _ hm)
      have he' : '#' ∉ e' := fun hm => he (List.mem_cons_of_mem _ hm)
      obtain ⟨rfl, rfl⟩ := ih e' x y hd' he' h2
      exact ⟨rfl, rfl⟩

theorem hash_split_inj {a b d e : List Char}
    (hd : '#' ∉ d) (he : '#' ∉ e)
    (h : a ++ '#' :: d = b ++ '#' :: e) : a = b ∧ d = e := by
  have hrev : d.reverse ++ '#' :: a.reverse = e.reverse ++ '#' :: b.reverse := by
    have := congrArg List.reverse h
    simpa [List.reverse_append] using this
  have hd' : '#' ∉ d.reverse := by simpa using hd
  have he' : '#' ∉ e.reverse := by simpa using he
  obtain ⟨h1, h2⟩ := sepRev_inj d.reverse e.reverse a.reverse b.reverse hd' he' hrev
  constructor
  · have := congrArg List.reverse h2
    simpa using this
  · have := congrArg List.reverse h1
    simpa using this

theorem rename_data (n : Nat) (g : String) :
    (rename n g).data = g.data ++ '#' :: (pyRepr n).data := by
  cases g with
  | mk l =>
    cases hp : pyRepr n with
    | mk p =>
      simp [rename, hp, String.data]

/-- The rename map is injective jointly in the font index and the
original name: two renamed identifiers coincide only if both the font
index and the original glyph name coincide. -/
theorem rename_inj {n m : Nat} {g h : String}
    (he : rename n g = rename m h) : n = m ∧ g = h := by
  have hdata : g.data ++ '#' :: (pyRepr n).data
      = h.data ++ '#' :: (pyRepr m).data := by
    have := congrArg String.data he
    rwa [rename_data, rename_data] at this
  obtain ⟨h1, h2⟩ := hash_split_inj hash_ne_mem_pyRepr hash_ne_mem_pyRepr hdata
  exact ⟨pyRepr_inj h2, congrArg String.mk h1⟩

theorem mergeGlyphOrdersLoop_spec :
    ∀ (glyphOrders : List (List String)) (n : Nat) (mega : List String),
      (mergeGlyphOrdersLoop n glyphOrders mega).1
        = (glyphOrders.enumFrom n).map (fun p => p.2.map (rename p.1)) ∧
      (mergeGlyphOrdersLoop n glyphOrders mega).2
        = mega ++ ((glyphOrders.enumFrom n).map (fun p => p.2.map (rename p.1))).flatten := by
  intro glyphOrders
  induction glyphOrders with
  | nil => intro n mega; simp [mergeGlyphOrdersLoop, List.enumFrom]
  | cons go rest ih =>
    intro n mega
    obtain ⟨ih1, ih2⟩ := ih (n + 1) (mega ++ go.map (rename n))
    constructor
    · simp only [mergeGlyphOrdersLoop, List.enumFrom, List.map_cons, ih1]
    · simp only [mergeGlyphOrdersLoop, List.enumFrom, List.map_cons,
        List.flatten_cons, ih2, List.append_assoc]

theorem mem_renamed_flatten :
    ∀ (gos : List (List String)) (k : Nat) (x : String),
      x ∈ ((gos.enumFrom k).map (fun p => p.2.map (rename p.1))).flatten →
      ∃ m g, k ≤ m ∧ x = rename m g := by
  intro gos
  induction gos with
  | nil => intro k x hx; simp [List.enumFrom] at hx
  | cons go rest ih =>
    intro k x hx
    simp only [List.enumFrom, List.map_cons, List.flatten_cons, List.mem_append] at hx
    rcases hx with hx | hx
    · obtain ⟨g, _, rfl⟩ := List.mem_map.mp hx
      exact ⟨k, g, Nat.le_refl k, rfl⟩
    · obtain ⟨m, g, hm, rfl⟩ := ih (k + 1) x hx
      exact ⟨m, g, by omega, rfl⟩

theorem nodup_renamed_flatten :
    ∀ (gos : List (List String)) (k : Nat), (∀ go ∈ gos, go.Nodup) →
      (((gos.enumFrom k).map (fun p => p.2.map (rename p.1))).flatten).Nodup := by
  intro gos
  induction gos with
  | nil => intro k _; simp [List.enumFrom]
  | cons go rest ih =>
    intro k h
    simp only [List.enumFrom, List.map_cons, List.flatten_cons]
    refine List.Nodup.append ?_ (ih (k + 1) fun go' hg => h go' (List.mem_cons_of_mem _ hg)) ?_
    · refine List.Nodup.map ?_ (h go (List.mem_cons_self _ _))
      intro a b hab
      exact (rename_inj hab).2
    · intro x hx hx'
      obtain ⟨g, _, rfl⟩ := List.mem_map.mp hx
      obtain ⟨m, g', hm, heq⟩ := mem_renamed_flatten rest (k + 1) _ hx'
      have := (rename_inj heq).1
      omega

theorem renamed_flatten_length :
    ∀ (gos : List (List String)) (k : Nat),
      (((gos.enumFrom k).map (fun p => p.2.map (rename p.1))).flatten).length
        = (gos.map List.length).sum := by
  intro gos
  induction gos with
  | nil => intro k; simp [List.enumFrom]
  | cons go rest ih =>
    intro k
    simp only [List.enumFrom, List.map_cons, List.flatten_cons, List.length_append,
      List.length_map, List.sum_cons, ih]

/-- C1: for input fonts (whose per-font glyph orders are duplicate-free,
as every font's glyph-identifier sequence is), the global merged glyph
order produced by `Merger._mergeGlyphOrders` contains no duplicate
identifiers: appending `"#" + repr(fontIndex)` to every name keeps all
renamed identifiers distinct. -/
theorem mergeGlyphOrders_nodup (glyphOrders : List (List String))
    (h : ∀ go ∈ glyphOrders, go.Nodup) :
    (mergeGlyphOrders glyphOrders).2.Nodup := by
  obtain ⟨-, h2⟩ := mergeGlyphOrdersLoop_spec glyphOrders 0 []
  rw [mergeGlyphOrders, h2, List.nil_append]
  exact nodup_renamed_flatten glyphOrders 0 h

theorem mergeGlyphOrders_nodup_witness :
    (∀ go ∈ [["a", "b#1"], ["b"]], go.Nodup) ∧
      (mergeGlyphOrders [["a", "b#1"], ["b"]]).2.Nodup :=
  ⟨by decide, mergeGlyphOrders_nodup [["a", "b#1"], ["b"]] (by decide)⟩

/-- C2: `Merger._mergeGlyphOrders` on N glyph-order sequences returns
per-font sequences renamed in place (each identifier of font `n` gets
the suffix `"#" + repr(n)`), and a global sequence that is their
concatenation in input order, of length the sum of the input lengths. -/
theorem mergeGlyphOrders_concat (glyphOrders : List (List String)) :
    (mergeGlyphOrders glyphOrders).1
      = glyphOrders.enum.map (fun p => p.2.map (rename p.1)) ∧
    (mergeGlyphOrders glyphOrders).2 = (mergeGlyphOrders glyphOrders).1.flatten ∧
    (mergeGlyphOrders glyphOrders).2.length = (glyphOrders.map List.length).sum := by
  obtain ⟨h1, h2⟩ := mergeGlyphOrdersLoop_spec glyphOrders 0 []
  rw [mergeGlyphOrders, h1, h2, List.nil_append]
  exact ⟨by rw [List.enum_eq_enumFrom], rfl, renamed_flatten_length glyphOrders 0⟩

/-! ## Merge-policy primitives

`equal` raises `AssertionError` (the spec's `PolicyViolation`) when the
values differ, and `StopIteration` on an empty sequence (`next` on an
exhausted iterator); the cmap merger's format assertion is the spec's
`UnsupportedFormat`; `max()` of an empty sequence raises `ValueError`. -/

inductive MergeError
  | policyViolation
  | stopIteration
  | unsupportedFormat
  | valueError
deriving DecidableEq

/-- The `equal` combinator: `first = next(t); assert all(item == first
for item in t); return first`. -/
def equal {α : Type} [DecidableEq α] : List α → Except MergeError α
  | [] => .error .stopIteration
  | x :: xs => if xs.all (fun item => item = x) then .ok x else .error .policyViolation

/-- C3: on a non-empty value list, `equal` returns the common value when
all values compare equal, and fails with `PolicyViolation` (the
assertion) when any two values differ. -/
theorem equal_spec {α : Type} [DecidableEq α] (lst : List α) (h : lst ≠ []) :
    ((∀ a ∈ lst, ∀ b ∈ lst, a = b) →
        ∃ x, equal lst = .ok x ∧ x ∈ lst ∧ ∀ a ∈ lst, a = x) ∧
    ((∃ a ∈ lst, ∃ b ∈ lst, a ≠ b) → equal lst = .error .policyViolation) := by
  match lst with
  | [] => exact absurd rfl h
  | x :: xs =>
    constructor
    · intro hall
      refine ⟨x, ?_, List.mem_cons_self _ _,
        fun a ha => hall a ha x (List.mem_cons_self _ _)⟩
      have : xs.all (fun item => decide (item = x)) = true := by
        rw [List.all_eq_true]
        intro a ha
        exact decide_eq_true
          (hall a (List.mem_cons_of_mem _ ha) x (List.mem_cons_self _ _))
      simp [equal, this]
    · rintro ⟨a, ha, b, hb, hab⟩
      have : ¬ (xs.all (fun item => decide (item = x)) = true) := by
        rw [List.all_eq_true]
        intro hall
        have hax : ∀ c ∈ x :: xs, c = x := by
          intro c hc
          rcases List.mem_cons.mp hc with rfl | hc
          · rfl
          · exact of_decide_eq_true (hall c hc)
        exact hab ((hax a ha).trans (hax b hb).symm)
      simp [equal, this]

theorem equal_spec_witness :
    (([7, 7] : List Nat) ≠ [] ∧ equal ([7, 7] : List Nat) = .ok 7) ∧
    (([7, 8] : List Nat) ≠ [] ∧
      equal ([7, 8] : List Nat) = .error .policyViolation) := by
  constructor
  · refine ⟨by decide, ?_⟩
    obtain ⟨x, hx, hmem, hval⟩ := (equal_spec ([7, 7] : List Nat) (by decide)).1
      (by decide)
    have : x = 7 := (hval 7 (by decide)).symm
    rwa [this] at hx
  · exact ⟨by decide, (equal_spec ([7, 8] : List Nat) (by decide)).2
      ⟨7, by decide, 8, by decide, by decide⟩⟩

/-! ## Generic helpers: folded maximum and last-source-wins lookup -/

theorem foldl_max_le {β : Type} (f : β → Nat) (l : List β) (a : Nat) :
    a ≤ l.foldl (fun acc t => max acc (f t)) a ∧
      ∀ x ∈ l, f x ≤ l.foldl (fun acc t => max acc (f t)) a := by
  induction l generalizing a with
  | nil => simp
  | cons y l ih =>
    obtain ⟨ih1, ih2⟩ := ih (max a (f y))
    refine ⟨le_trans (Nat.le_max_left _ _) ih1, ?_⟩
    intro x hx
    rcases List.mem_cons.mp hx with rfl | hx
    · exact le_trans (Nat.le_max_right _ _) ih1
    · exact ih2 x hx

theorem foldl_max_mem {β : Type} (f : β → Nat) (l : List β) (a : Nat) :
    l.foldl (fun acc t => max acc (f t)) a = a ∨
      l.foldl (fun acc t => max acc (f t)) a ∈ l.map f := by
  induction l generalizing a with
  | nil => exact Or.inl rfl
  | cons y l ih =>
    rcases ih (max a (f y)) with h | h
    · rcases Nat.le_total a (f y) with hab | hab
      · refine Or.inr ?_
        rw [List.foldl_cons, h, Nat.max_eq_right hab]
        exact List.mem_cons_self _ _
      · exact Or.inl (by rw [List.foldl_cons, h, Nat.max_eq_left hab])
    · exact Or.inr (List.mem_cons_of_mem _ h)

theorem foldl_dictUpdate_map {κ ν β : Type} (f : β → Dict κ ν)
    (l : List β) (init : Dict κ ν) :
    l.foldl (fun acc t => dictUpdate acc (f t)) init = init ++ (l.map f).flatten := by
  induction l generalizing init with
  | nil => simp
  | cons d rest ih =>
    rw [List.foldl_cons, ih, List.map_cons, List.flatten_cons]
    simp [dictUpdate, List.append_assoc]

theorem lastDefined_eq_none {κ ν : Type} [DecidableEq κ] (ls : List (Dict κ ν)) (k : κ)
    (h : ∀ d ∈ ls, dget d k = none) : lastDefined ls k = none := by
  induction ls with
  | nil => rfl
  | cons d rest ih =>
    simp only [lastDefined, ih fun d' hd' => h d' (List.mem_cons_of_mem _ hd'),
      h d (List.mem_cons_self _ _), oOr]

/-- If exactly one source (under projection `f`) defines `k`, the folded
dict-union resolves `k` to that source's value. -/
theorem lastDefined_of_unique {κ ν β : Type} [DecidableEq κ] (f : β → Dict κ ν)
    (l : List β) (u : β) (k : κ) (hu : u ∈ l) (hs : (dget (f u) k).isSome)
    (hothers : ∀ v ∈ l, v ≠ u → dget (f v) k = none) :
    lastDefined (l.map f) k = dget (f u) k := by
  induction l with
  | nil => exact absurd hu (List.not_mem_nil u)
  | cons d rest ih =>
    by_cases hur : u ∈ rest
    · have hres := ih hur fun v hv => hothers v (List.mem_cons_of_mem _ hv)
      simp only [List.map_cons, lastDefined, hres]
      cases hval : dget (f u) k with
      | some v => simp [oOr]
      | none => rw [hval] at hs; exact Bool.noConfusion hs
    · have hud : u = d := by
        rcases List.mem_cons.mp hu with rfl | hc
        · rfl
        · exact absurd hc hur
      subst hud
      have hnone : lastDefined (rest.map f) k = none := by
        refine lastDefined_eq_none _ _ ?_
        intro d' hd'
        obtain ⟨v, hv, rfl⟩ := List.mem_map.mp hd'
        exact hothers v (List.mem_cons_of_mem _ hv) (fun hvu => hur (hvu ▸ hv))
      simp only [List.map_cons, lastDefined, hnone, oOr]

theorem lastDefined_eq_find? {κ ν : Type} [DecidableEq κ] (ls : List (Dict κ ν)) (k : κ) :
    lastDefined ls k
      = (ls.reverse.find? fun d => (dget d k).isSome).bind fun d => dget d k := by
  induction ls with
  | nil => rfl
  | cons d rest ih =>
    simp only [lastDefined, List.reverse_cons]
    cases h : lastDefined rest k with
    | some v =>
      rw [h] at ih
      cases hf : rest.reverse.find? (fun d => (dget d k).isSome) with
      | none => rw [hf] at ih; exact Option.noConfusion ih
      | some d' =>
        rw [hf] at ih
        simp only [Option.some_bind] at ih
        rw [List.find?_append, hf]
        show oOr (some v) (dget d k) = dget d' k
        rw [← ih]
        rfl
    | none =>
      rw [h] at ih
      have hf : rest.reverse.find? (fun d => (dget d k).isSome) = none := by
        cases hf : rest.reverse.find? (fun d => (dget d k).isSome) with
        | none => rfl
        | some d' =>
          rw [hf] at ih
          simp only [Option.some_bind] at ih
          have hp0 := List.find?_some hf
          have hp : (dget d' k).isSome = true := hp0
          rw [← ih] at hp
          exact Bool.noConfusion hp
      rw [List.find?_append, hf, Option.none_or]
      have hone : (List.find? (fun d => (dget d k).isSome) [d]).bind (fun d => dget d k)
          = dget d k := by
        cases ho' : dget d k with
        | some v => simp [List.find?, ho']
        | none => simp [List.find?, ho']
      rw [hone]
      rfl

/-- `lastDefined` over projected dicts, phrased as: the latest element of
`l` (in input order) whose dict defines `k` provides the value. -/
theorem lastDefined_map_eq_find? {κ ν β : Type} [DecidableEq κ] (f : β → Dict κ ν)
    (l : List β) (k : κ) :
    lastDefined (l.map f) k
      = (l.reverse.find? fun b => (dget (f b) k).isSome).bind fun b => dget (f b) k := by
  rw [lastDefined_eq_find?, ← List.map_reverse, List.find?_map]
  have hpred : ((fun d => (dget d k).isSome) ∘ f) = fun b => (dget (f b) k).isSome := rfl
  rw [hpred]
  cases l.reverse.find? fun b => (dget (f b) k).isSome <;> rfl

/-! ## Character-map merger (`cmap` table `merge`) -/

structure CmapSubtable where
  platformID : Nat
  platEncID : Nat
  language : Nat
  format : Nat
  cmap : Dict Nat String
deriving DecidableEq

structure CmapTable where
  tableVersion : Nat
  tables : List CmapSubtable
  numSubTables : Nat
deriving DecidableEq

/-- The list comprehension: subtables of all source tables with
`platformID == 3 and platEncID in [1, 10]`, in source order. -/
def selectedSubtables (ts : List CmapTable) : List CmapSubtable :=
  (ts.map fun table => table.tables.filter fun t =>
    t.platformID == 3 && (t.platEncID == 1 || t.platEncID == 10)).flatten

/-- The `cmap` merge: assert all selected formats are 4 or 12 (else
`UnsupportedFormat`), build one fresh subtable with the maximum format
and `platEncID`, `platformID = 3`, `language = 0`, and the union of the
selected subtables' maps applied in source order; `max()` of an empty
selection raises `ValueError`. -/
def mergeCmap (ts : List CmapTable) : Except MergeError CmapTable :=
  if (selectedSubtables ts).all (fun t => t.format == 4 || t.format == 12) then
    match selectedSubtables ts with
    | [] => .error .valueError
    | t₀ :: rest =>
        .ok { tableVersion := 0,
              tables := [{
                platformID := 3,
                platEncID := rest.foldl (fun a t => max a t.platEncID) t₀.platEncID,
                language := 0,
                format := rest.foldl (fun a t => max a t.format) t₀.format,
                cmap := (t₀ :: rest).foldl (fun acc t => dictUpdate acc t.cmap) [] }],
              numSubTables := 1 }
  else .error .unsupportedFormat

theorem mergeCmap_ok_shape (ts : List CmapTable) (res : CmapTable)
    (h : mergeCmap ts = .ok res) :
    ∃ t₀ rest, selectedSubtables ts = t₀ :: rest ∧
      res = { tableVersion := 0,
              tables := [{
                platformID := 3,
                platEncID := rest.foldl (fun a t => max a t.platEncID) t₀.platEncID,
                language := 0,
                format := rest.foldl (fun a t => max a t.format) t₀.format,
                cmap := (t₀ :: rest).foldl (fun acc t => dictUpdate acc t.cmap) [] }],
              numSubTables := 1 } := by
  unfold mergeCmap at h
  split at h
  · split at h
    · exact Except.noConfusion h
    · next t₀ rest heq =>
        exact ⟨t₀, rest, heq, (Except.ok.injEq _ _ ▸ h).symm⟩
  · exact Except.noConfusion h

/-- The merged `cmap` dict equals the last-source-wins union of the
selected subtables' dicts. -/
theorem mergeCmap_cmap_eq (t₀ : CmapSubtable) (rest : List CmapSubtable) (cp : Nat) :
    dget ((t₀ :: rest).foldl (fun acc t => dictUpdate acc t.cmap) []) cp
      = ((t₀ :: rest).reverse.find? fun u => (dget u.cmap cp).isSome).bind
          fun u => dget u.cmap cp := by
  rw [foldl_dictUpdate_map (fun t => t.cmap) (t₀ :: rest) [], List.nil_append,
    dget_join, lastDefined_map_eq_find?]

/-- C4: if the character-map merge succeeds, the output has exactly one
subtable; its format is the maximum of the selected subtables' formats;
a code point present in several selected subtables resolves to the value
of the latest one in input order, and a code point present in exactly
one selected subtable resolves to that subtable's glyph. -/
theorem mergeCmap_spec (ts : List CmapTable) (res : CmapTable)
    (h : mergeCmap ts = .ok res) :
    res.tables.length = 1 ∧
    ∀ st ∈ res.tables,
      (st.format ∈ (selectedSubtables ts).map CmapSubtable.format ∧
        ∀ f ∈ (selectedSubtables ts).map CmapSubtable.format, f ≤ st.format) ∧
      (∀ cp : Nat,
        dget st.cmap cp
          = ((selectedSubtables ts).reverse.find? fun u => (dget u.cmap cp).isSome).bind
              fun u => dget u.cmap cp) ∧
      (∀ cp : Nat, ∀ u ∈ selectedSubtables ts, (dget u.cmap cp).isSome →
        (∀ v ∈ selectedSubtables ts, v ≠ u → dget v.cmap cp = none) →
        dget st.cmap cp = dget u.cmap cp) := by
  obtain ⟨t₀, rest, heq, rfl⟩ := mergeCmap_ok_shape ts res h
  refine ⟨rfl, ?_⟩
  intro st hst
  rw [List.mem_singleton] at hst
  subst hst
  rw [heq]
  refine ⟨⟨?_, ?_⟩, ?_, ?_⟩
  · rcases foldl_max_mem (fun t => t.format) rest t₀.format with hm | hm
    · rw [hm]
      exact List.mem_map.mpr ⟨t₀, List.mem_cons_self _ _, rfl⟩
    · rw [List.map_cons]
      exact List.mem_cons_of_mem _ hm
  · intro f hf
    obtain ⟨u, hu, rfl⟩ := List.mem_map.mp hf
    rcases List.mem_cons.mp hu with rfl | hu
    · exact (foldl_max_le (fun t => t.format) rest u.format).1
    · exact (foldl_max_le (fun t => t.format) rest t₀.format).2 u hu
  · intro cp
    exact mergeCmap_cmap_eq t₀ rest cp
  · intro cp u hu hus hothers
    rw [mergeCmap_cmap_eq t₀ rest cp, ← lastDefined_map_eq_find?]
    exact lastDefined_of_unique (fun t => t.cmap) (t₀ :: rest) u cp hu hus hothers

/-- C9: if the character-map merge succeeds, the single output subtable
has `platformID = 3`, `language = 0`, and `platEncID` the maximum of the
selected subtables' `platEncID`s. -/
theorem mergeCmap_subtable_ids (ts : List CmapTable) (res : CmapTable)
    (h : mergeCmap ts = .ok res) :
    ∀ st ∈ res.tables,
      st.platformID = 3 ∧ st.language = 0 ∧
      st.platEncID ∈ (selectedSubtables ts).map CmapSubtable.platEncID ∧
      ∀ e ∈ (selectedSubtables ts).map CmapSubtable.platEncID, e ≤ st.platEncID := by
  obtain ⟨t₀, rest, heq, rfl⟩ := mergeCmap_ok_shape ts res h
  intro st hst
  rw [List.mem_singleton] at hst
  subst hst
  rw [heq]
  refine ⟨rfl, rfl, ?_, ?_⟩
  · rcases foldl_max_mem (fun t => t.platEncID) rest t₀.platEncID with hm | hm
    · rw [hm]
      exact List.mem_map.mpr ⟨t₀, List.mem_cons_self _ _, rfl⟩
    · rw [List.map_cons]
      exact List.mem_cons_of_mem _ hm
  · intro e he
    obtain ⟨u, hu, rfl⟩ := List.mem_map.mp he
    rcases List.mem_cons.mp hu with rfl | hu
    · exact (foldl_max_le (fun t => t.platEncID) rest u.platEncID).1
    · exact (foldl_max_le (fun t => t.platEncID) rest t₀.platEncID).2 u hu

/-- Two concrete cmap tables: a BMP format-4 subtable mapping U+0061,
and a full-repertoire format-12 subtable remapping U+0061 and adding
U+0062. -/
def cmapWitnessTables : List CmapTable :=
  [{ tableVersion := 0,
     tables := [{ platformID := 3, platEncID := 1, language := 0, format := 4,
                  cmap := [(97, "a#0")] }],
     numSubTables := 1 },
   { tableVersion := 0,
     tables := [{ platformID := 3, platEncID := 10, language := 0, format := 12,
                  cmap := [(97, "b#1"), (98, "c#1")] }],
     numSubTables := 1 }]

/-- The merged table `mergeCmap` produces on `cmapWitnessTables`. -/
def cmapWitnessSub : CmapSubtable :=
  { platformID := 3, platEncID := 10, language := 0, format := 12,
    cmap := [(97, "a#0"), (97, "b#1"), (98, "c#1")] }

def cmapWitnessRes : CmapTable :=
  { tableVersion := 0, tables := [cmapWitnessSub], numSubTables := 1 }

theorem mergeCmap_spec_witness :
    mergeCmap cmapWitnessTables = .ok cmapWitnessRes ∧
    cmapWitnessRes.tables.length = 1 ∧
    dget cmapWitnessSub.cmap 97 = some "b#1" ∧
    dget cmapWitnessSub.cmap 98 = some "c#1" := by
  have happ := mergeCmap_spec cmapWitnessTables cmapWitnessRes rfl
  refine ⟨rfl, happ.1, ?_, ?_⟩
  · rw [(happ.2 cmapWitnessSub (by decide)).2.1 97]
    decide
  · have hone := (happ.2 cmapWitnessSub (by decide)).2.2 98
      { platformID := 3, platEncID := 10, language := 0, format := 12,
        cmap := [(97, "b#1"), (98, "c#1")] } (by decide) (by decide) (by decide)
    rw [hone]
    decide

theorem mergeCmap_subtable_ids_witness :
    cmapWitnessSub.platformID = 3 ∧ cmapWitnessSub.language = 0 ∧
    cmapWitnessSub.platEncID = 10 := by
  have happ := mergeCmap_subtable_ids cmapWitnessTables cmapWitnessRes rfl
    cmapWitnessSub (by decide)
  exact ⟨happ.1, happ.2.1, by decide⟩

/-! ## Metrics merger (`hmtx`/`vmtx` table `merge`)

`self.metrics = {}` followed by `self.metrics.update(table.metrics)` for
each source table in input order.  A metrics value is the pair
(advance, side bearing). -/

structure MtxTable where
  metrics : Dict String (Int × Int)
deriving DecidableEq

def mergeMtx (ts : List MtxTable) : MtxTable :=
  { metrics := ts.foldl (fun acc table => dictUpdate acc table.metrics) [] }

/-- C5: the merged metrics mapping's key set is the union of the source
tables' key sets; each key's value comes from the latest source in input
order that defines it; in particular, from the only source defining it
when keys do not collide. -/
theorem mergeMtx_spec (ts : List MtxTable) :
    (∀ g : String, (dget (mergeMtx ts).metrics g).isSome ↔
        ∃ t ∈ ts, (dget t.metrics g).isSome) ∧
    (∀ g : String,
      dget (mergeMtx ts).metrics g
        = (ts.reverse.find? fun t => (dget t.metrics g).isSome).bind
            fun t => dget t.metrics g) ∧
    (∀ g : String, ∀ u ∈ ts, (dget u.metrics g).isSome →
      (∀ v ∈ ts, v ≠ u → dget v.metrics g = none) →
      dget (mergeMtx ts).metrics g = dget u.metrics g) := by
  have hmet : (mergeMtx ts).metrics = (ts.map fun t => t.metrics).flatten := by
    rw [mergeMtx]
    rw [foldl_dictUpdate_map (fun t => t.metrics) ts [], List.nil_append]
  refine ⟨?_, ?_, ?_⟩
  · intro g
    rw [hmet, dget_join, lastDefined_isSome]
    constructor
    · rintro ⟨d, hd, hs⟩
      obtain ⟨t, ht, rfl⟩ := List.mem_map.mp hd
      exact ⟨t, ht, hs⟩
    · rintro ⟨t, ht, hs⟩
      exact ⟨t.metrics, List.mem_map.mpr ⟨t, ht, rfl⟩, hs⟩
  · intro g
    rw [hmet, dget_join, lastDefined_map_eq_find?]
  · intro g u hu hus hothers
    rw [hmet, dget_join]
    exact lastDefined_of_unique (fun t => t.metrics) ts u g hu hus hothers

def mtxWitnessTables : List MtxTable :=
  [{ metrics := [("a#0", (500, 10))] }, { metrics := [("b#1", (600, 20))] }]

theorem mergeMtx_spec_witness :
    ((dget (mergeMtx mtxWitnessTables).metrics "a#0").isSome = true) ∧
    ((dget (mergeMtx mtxWitnessTables).metrics "c#2").isSome = false) ∧
    dget (mergeMtx mtxWitnessTables).metrics "b#1" = some (600, 20) := by
  have happ := mergeMtx_spec mtxWitnessTables
  refine ⟨?_, by decide, ?_⟩
  · exact (happ.1 "a#0").mpr ⟨{ metrics := [("a#0", (500, 10))] }, by decide, by decide⟩
  · rw [happ.2.2 "b#1" { metrics := [("b#1", (600, 20))] } (by decide) (by decide)
      (by decide)]
    decide

/-! ## PostScript-info merger (`post` table `merge`)

`_mergeKeys` with the post policy (`'*': first`, `formatType: max`,
`isFixedPitch: min`, `minMemType42/minMemType1: max`,
`maxMemType42/maxMemType1: always 0`, `mapping`/`extraNames` ignored),
then `self.mapping = {}` updated from every source that has a `mapping`
attribute, and `self.extraNames = []`.  `tableTag` is implicitly merged
with `equal`.  An empty source list never arises (one table per input
font); it is modelled as an error. -/

structure PostTable where
  tableTag : String
  formatType : ℚ
  italicAngle : ℚ
  underlinePosition : Int
  underlineThickness : Int
  isFixedPitch : Nat
  minMemType42 : Nat
  maxMemType42 : Nat
  minMemType1 : Nat
  maxMemType1 : Nat
  mapping : Option (Dict String String)
  extraNames : List String
deriving DecidableEq

def mergePost (ts : List PostTable) : Except MergeError PostTable :=
  match ts with
  | [] => .error .stopIteration
  | t :: rest =>
    match equal (ts.map fun table => table.tableTag) with
    | .error e => .error e
    | .ok tag =>
      .ok { tableTag := tag,
            formatType := rest.foldl (fun a x => max a x.formatType) t.formatType,
            italicAngle := t.italicAngle,
            underlinePosition := t.underlinePosition,
            underlineThickness := t.underlineThickness,
            isFixedPitch := rest.foldl (fun a x => min a x.isFixedPitch) t.isFixedPitch,
            minMemType42 := rest.foldl (fun a x => max a x.minMemType42) t.minMemType42,
            maxMemType42 := 0,
            minMemType1 := rest.foldl (fun a x => max a x.minMemType1) t.minMemType1,
            maxMemType1 := 0,
            mapping := some ((ts.filterMap fun table => table.mapping).foldl
              (fun acc d => dictUpdate acc d) []),
            extraNames := [] }

/-- C10: a successful `post` merge sets `extraNames` to the empty list
regardless of the sources' values, and its glyph-name mapping is the
last-source-wins union of the mappings of exactly those source tables
that have one. -/
theorem mergePost_spec (ts : List PostTable) (res : PostTable)
    (h : mergePost ts = .ok res) :
    res.extraNames = [] ∧
    ∃ d, res.mapping = some d ∧
      (∀ g : String, (dget d g).isSome ↔
        ∃ mp ∈ ts.filterMap PostTable.mapping, (dget mp g).isSome) ∧
      (∀ g : String, dget d g
        = ((ts.filterMap PostTable.mapping).reverse.find? fun mp =>
            (dget mp g).isSome).bind fun mp => dget mp g) := by
  match ts with
  | [] => exact Except.noConfusion h
  | t :: rest =>
    rw [mergePost] at h
    split at h
    · exact Except.noConfusion h
    · rw [Except.ok.injEq] at h
      subst h
      refine ⟨rfl, _, rfl, ?_, ?_⟩
      · intro g
        rw [foldl_dictUpdate ((t :: rest).filterMap fun table => table.mapping) [],
          List.nil_append, dget_join, lastDefined_isSome]
      · intro g
        rw [foldl_dictUpdate ((t :: rest).filterMap fun table => table.mapping) [],
          List.nil_append, dget_join, lastDefined_eq_find?]

def postWitnessTables : List PostTable :=
  [{ tableTag := "post", formatType := 2, italicAngle := 0,
     underlinePosition := -75, underlineThickness := 50, isFixedPitch := 0,
     minMemType42 := 0, maxMemType42 := 10, minMemType1 := 0, maxMemType1 := 20,
     mapping := some [("a#0", "a")], extraNames := ["x"] },
   { tableTag := "post", formatType := 3, italicAngle := 0,
     underlinePosition := -75, underlineThickness := 50, isFixedPitch := 1,
     minMemType42 := 0, maxMemType42 := 30, minMemType1 := 0, maxMemType1 := 40,
     mapping := none, extraNames := ["y"] }]

def postWitnessRes : PostTable :=
  { tableTag := "post", formatType := 3, italicAngle := 0,
    underlinePosition := -75, underlineThickness := 50, isFixedPitch := 0,
    minMemType42 := 0, maxMemType42 := 0, minMemType1 := 0, maxMemType1 := 0,
    mapping := some [("a#0", "a")], extraNames := [] }

theorem mergePost_spec_witness :
    mergePost postWitnessTables = .ok postWitnessRes ∧
    postWitnessRes.extraNames = [] ∧ postWitnessRes.mapping = some [("a#0", "a")] := by
  have happ := mergePost_spec postWitnessTables postWitnessRes rfl
  exact ⟨rfl, happ.1, rfl⟩

/-! ## Layout-definition merger (`GDEF` table `merge`)

The merger reads only `Coverage.glyphs`, `LigGlyph`, `AttachPoint` and
`classDefs` from the sources; ligature-caret and attachment-point
records are opaque to it and modelled as atoms.  Python truthiness of
the four optional substructures is `Option.isSome` (a present subtable
object is always truthy). -/

/-- A ligature-caret record; its contents are opaque to the merger. -/
structure LigGlyphRec where
  recId : Nat
deriving DecidableEq

/-- An attachment-point record; its contents are opaque to the merger. -/
structure AttachPointRec where
  recId : Nat
deriving DecidableEq

structure Coverage where
  glyphs : List String
deriving DecidableEq

structure LigCaretList where
  coverage : Coverage
  ligGlyph : List LigGlyphRec
  glyphCount : Nat
deriving DecidableEq

structure AttachList where
  coverage : Coverage
  attachPoint : List AttachPointRec
  glyphCount : Nat
deriving DecidableEq

/-- `MarkAttachClassDef` / `GlyphClassDef`: a class-definition mapping
from glyph identifier to class value. -/
structure ClassDef where
  classDefs : Dict String Nat
deriving DecidableEq

/-- The inner `otTables.GDEF` structure. -/
structure GDEFInner where
  version : ℚ
  ligCaretList : Option LigCaretList
  markAttachClassDef : Option ClassDef
  glyphClassDef : Option ClassDef
  attachList : Option AttachList
deriving DecidableEq

/-- The `GDEF` table wrapper (`self.table`). -/
structure TableGDEF where
  table : GDEFInner
deriving DecidableEq

def mergeGDEF (ts : List TableGDEF) : TableGDEF :=
  { table :=
    { version := 1,
      ligCaretList :=
        if ts.any (fun t => t.table.ligCaretList.isSome) then
          let present := ts.filterMap (fun t => t.table.ligCaretList)
          let ligGlyphs := (present.map (fun l => l.ligGlyph)).flatten
          some { coverage := { glyphs := (present.map (fun l => l.coverage.glyphs)).flatten },
                 ligGlyph := ligGlyphs,
                 glyphCount := ligGlyphs.length }
        else none,
      markAttachClassDef :=
        if ts.any (fun t => t.table.markAttachClassDef.isSome) then
          some { classDefs :=
            ((ts.filterMap (fun t => t.table.markAttachClassDef)).map
              (fun c => c.classDefs)).foldl (fun acc d => dictUpdate acc d) [] }
        else none,
      glyphClassDef :=
        if ts.any (fun t => t.table.glyphClassDef.isSome) then
          some { classDefs :=
            ((ts.filterMap (fun t => t.table.glyphClassDef)).map
              (fun c => c.classDefs)).foldl (fun acc d => dictUpdate acc d) [] }
        else none,
      attachList :=
        if ts.any (fun t => t.table.attachList.isSome) then
          let present := ts.filterMap (fun t => t.table.attachList)
          let attachPoints := (present.map (fun l => l.attachPoint)).flatten
          some { coverage := { glyphs := (present.map (fun l => l.coverage.glyphs)).flatten },
                 attachPoint := attachPoints,
                 glyphCount := attachPoints.length }
        else none } }

theorem isSome_ite_some {γ : Type} (c : Bool) (e : γ) :
    (if c = true then some e else none).isSome = true ↔ c = true := by
  cases c <;> simp

theorem any_isSome_iff_filterMap {β γ : Type} (f : β → Option γ) (l : List β) :
    (l.any fun t => (f t).isSome) = true ↔ ∃ t ∈ l, (f t).isSome := by
  rw [List.any_eq_true]

theorem filterMap_eq_singleton_any {β γ : Type} (f : β → Option γ) (l : List β) (c : γ)
    (h : l.filterMap f = [c]) : (l.any fun t => (f t).isSome) = true := by
  rw [List.any_eq_true]
  have hc : c ∈ l.filterMap f := by rw [h]; exact List.mem_singleton.mpr rfl
  obtain ⟨t, ht, hf⟩ := List.mem_filterMap.mp hc
  exact ⟨t, ht, by rw [hf]; rfl⟩

/-- C6: each of the four optional GDEF substructures is present in the
merged table iff some source has it; it is `none` when no source has it;
and when the sources having it reduce to exactly one, the merged
substructure equals that source's (for the list-shaped substructures,
provided that source's stored record count is consistent, as decompiled
tables' counts are). -/
theorem mergeGDEF_spec (ts : List TableGDEF) :
    (((mergeGDEF ts).table.ligCaretList.isSome ↔
        ∃ t ∈ ts, t.table.ligCaretList.isSome) ∧
     ((mergeGDEF ts).table.markAttachClassDef.isSome ↔
        ∃ t ∈ ts, t.table.markAttachClassDef.isSome) ∧
     ((mergeGDEF ts).table.glyphClassDef.isSome ↔
        ∃ t ∈ ts, t.table.glyphClassDef.isSome) ∧
     ((mergeGDEF ts).table.attachList.isSome ↔
        ∃ t ∈ ts, t.table.attachList.isSome)) ∧
    ((∀ l : LigCaretList, ts.filterMap (fun t => t.table.ligCaretList) = [l] →
        l.glyphCount = l.ligGlyph.length →
        (mergeGDEF ts).table.ligCaretList = some l) ∧
     (∀ c : ClassDef, ts.filterMap (fun t => t.table.markAttachClassDef) = [c] →
        (mergeGDEF ts).table.markAttachClassDef = some c) ∧
     (∀ c : ClassDef, ts.filterMap (fun t => t.table.glyphClassDef) = [c] →
        (mergeGDEF ts).table.glyphClassDef = some c) ∧
     (∀ l : AttachList, ts.filterMap (fun t => t.table.attachList) = [l] →
        l.glyphCount = l.attachPoint.length →
        (mergeGDEF ts).table.attachList = some l)) := by
  constructor
  · refine ⟨?_, ?_, ?_, ?_⟩ <;>
      · simp only [mergeGDEF]
        rw [isSome_ite_some]
        exact List.any_eq_true
  · refine ⟨?_, ?_, ?_, ?_⟩
    · intro l hfm hcount
      obtain ⟨⟨gl⟩, lg, gc⟩ := l
      simp only [mergeGDEF, filterMap_eq_singleton_any _ ts _ hfm, if_true, hfm]
      simp only [List.map_cons, List.map_nil, List.flatten_cons, List.flatten_nil,
        List.append_nil, Option.some.injEq, LigCaretList.mk.injEq, Coverage.mk.injEq]
      exact ⟨trivial, trivial, hcount.symm⟩
    · intro c hfm
      simp only [mergeGDEF, filterMap_eq_singleton_any _ ts c hfm, if_true, hfm]
      simp [dictUpdate]
    · intro c hfm
      simp only [mergeGDEF, filterMap_eq_singleton_any _ ts c hfm, if_true, hfm]
      simp [dictUpdate]
    · intro l hfm hcount
      obtain ⟨⟨gl⟩, ap, gc⟩ := l
      simp only [mergeGDEF, filterMap_eq_singleton_any _ ts _ hfm, if_true, hfm]
      simp only [List.map_cons, List.map_nil, List.flatten_cons, List.flatten_nil,
        List.append_nil, Option.some.injEq, AttachList.mk.injEq, Coverage.mk.injEq]
      exact ⟨trivial, trivial, hcount.symm⟩

def gdefWitnessLig : LigCaretList :=
  { coverage := { glyphs := ["f_i#0"] },
    ligGlyph := [{ recId := 1 }],
    glyphCount := 1 }

def gdefWitnessTables : List TableGDEF :=
  [{ table :=
      { version := 1,
        ligCaretList := some gdefWitnessLig,
        markAttachClassDef := none,
        glyphClassDef := some { classDefs := [("a#0", 1)] },
        attachList := none } },
   { table :=
      { version := 1,
        ligCaretList := none,
        markAttachClassDef := none,
        glyphClassDef := some { classDefs := [("b#1", 3)] },
        attachList := none } }]

theorem mergeGDEF_spec_witness :
    (mergeGDEF gdefWitnessTables).table.ligCaretList = some gdefWitnessLig ∧
    (mergeGDEF gdefWitnessTables).table.markAttachClassDef = none ∧
    (mergeGDEF gdefWitnessTables).table.glyphClassDef.isSome := by
  have happ := mergeGDEF_spec gdefWitnessTables
  refine ⟨?_, by decide, by decide⟩
  exact happ.2.1 gdefWitnessLig (by decide) (by decide)

/-! ## Merge policies and combinator lookup (`_mergeKeys` dispatch)

Each table merger passes a `logic` dict from field name to combinator;
`_mergeKeys` first sets `logic['tableTag'] = equal`, then for each field
looks up the exact key and falls back to `logic['*']`.  A failed
fallback is an uncaught `KeyError` (the spec's `UnsupportedCombinator`).
Only the lookup structure matters here, so combinators are named by an
enumeration. -/

inductive Comb
  | equalC
  | firstC
  | recalculateC
  | currentTimeC
  | bitwiseOrC
  | ignoreC
  | maxC
  | minC
  | sumC
  | const0
  | const2
deriving DecidableEq

/-- The `maxp` merge policy. -/
def maxpLogic : Dict String Comb :=
  [("*", .maxC), ("tableVersion", .equalC), ("numGlyphs", .sumC),
   ("maxStorage", .maxC), ("maxFunctionDefs", .sumC),
   ("maxInstructionDefs", .sumC)]

/-- The `head` merge policy (note: no `'*'` wildcard entry). -/
def headLogic : Dict String Comb :=
  [("tableVersion", .maxC), ("fontRevision", .maxC),
   ("checkSumAdjustment", .recalculateC), ("magicNumber", .equalC),
   ("flags", .firstC), ("unitsPerEm", .equalC), ("created", .currentTimeC),
   ("modified", .currentTimeC), ("xMin", .minC), ("yMin", .minC),
   ("xMax", .maxC), ("yMax", .maxC), ("macStyle", .firstC),
   ("lowestRecPPEM", .maxC), ("fontDirectionHint", .const2),
   ("indexToLocFormat", .recalculateC), ("glyphDataFormat", .equalC)]

/-- The `hhea` merge policy. -/
def hheaLogic : Dict String Comb :=
  [("*", .equalC), ("tableVersion", .maxC), ("ascent", .maxC),
   ("descent", .minC), ("lineGap", .maxC), ("advanceWidthMax", .maxC),
   ("minLeftSideBearing", .minC), ("minRightSideBearing", .minC),
   ("xMaxExtent", .maxC), ("caretSlopeRise", .firstC),
   ("caretSlopeRun", .firstC), ("caretOffset", .firstC),
   ("numberOfHMetrics", .recalculateC)]

/-- The `OS/2` merge policy. -/
def os2Logic : Dict String Comb :=
  [("*", .firstC), ("version", .maxC), ("xAvgCharWidth", .recalculateC),
   ("fsType", .firstC), ("panose", .firstC), ("ulUnicodeRange1", .bitwiseOrC),
   ("ulUnicodeRange2", .bitwiseOrC), ("ulUnicodeRange3", .bitwiseOrC),
   ("ulUnicodeRange4", .bitwiseOrC), ("fsFirstCharIndex", .minC),
   ("fsLastCharIndex", .maxC), ("sTypoAscender", .maxC),
   ("sTypoDescender", .minC), ("sTypoLineGap", .maxC),
   ("usWinAscent", .maxC), ("usWinDescent", .maxC),
   ("ulCodePageRange1", .bitwiseOrC), ("ulCodePageRange2", .bitwiseOrC),
   ("usMaxContex", .maxC)]

/-- The `post` merge policy. -/
def postLogic : Dict String Comb :=
  [("*", .firstC), ("formatType", .maxC), ("isFixedPitch", .minC),
   ("minMemType42", .maxC), ("maxMemType42", .const0),
   ("minMemType1", .maxC), ("maxMemType1", .const0),
   ("mapping", .ignoreC), ("extraNames", .ignoreC)]

/-- `logic['tableTag'] = equal`, done by `_mergeKeys` before the loop. -/
def mergeKeysLogic (logic : Dict String Comb) : Dict String Comb :=
  dictUpdate logic [("tableTag", .equalC)]

/-- The per-key dispatch of `_mergeKeys`: `logic[key]`, on `KeyError`
`logic['*']`; `none` is the uncaught-`KeyError` error branch. -/
def resolveLogic (logic : Dict String Comb) (key : String) : Option Comb :=
  oOr (dget (mergeKeysLogic logic) key) (dget (mergeKeysLogic logic) "*")

/-- The field names a `head` table carries (its fixed schema plus the
implicitly merged `tableTag`). -/
def headFields : List String :=
  ["tableVersion", "fontRevision", "checkSumAdjustment", "magicNumber",
   "flags", "unitsPerEm", "created", "modified", "xMin", "yMin", "xMax",
   "yMax", "macStyle", "lowestRecPPEM", "fontDirectionHint",
   "indexToLocFormat", "glyphDataFormat", "tableTag"]

theorem dget_isSome_iff_mem_keys {κ ν : Type} [DecidableEq κ] (d : Dict κ ν) (k : κ) :
    (dget d k).isSome ↔ k ∈ d.map Prod.fst := by
  induction d with
  | nil => simp [dget]
  | cons p rest ih =>
    obtain ⟨k₁, v⟩ := p
    simp only [dget, List.map_cons, List.mem_cons]
    cases h : dget rest k with
    | some w =>
      simp only [oOr, Option.isSome_some, true_iff]
      exact Or.inr (ih.mp (by rw [h]; rfl))
    | none =>
      simp only [oOr]
      rw [← ih, h]
      by_cases hk : k₁ = k
      · subst hk
        simp
      · rw [if_neg hk]
        simp only [Option.isSome_none, Bool.false_eq_true, false_iff, false_or]
        intro hc
        rcases hc with hc | hc
        · exact hk hc.symm
        · exact hc

theorem resolveLogic_isSome_of_wildcard (logic : Dict String Comb)
    (h : (dget (mergeKeysLogic logic) "*").isSome) (key : String) :
    (resolveLogic logic key).isSome := by
  unfold resolveLogic
  cases hk : dget (mergeKeysLogic logic) key with
  | some c => rfl
  | none => simpa [oOr] using h

/-- C7 counterexample: the `head` merge policy contains no `'*'`
wildcard entry, and the `_mergeKeys` combinator lookup on a `head` table
field name outside the `head` schema reaches the no-wildcard error
branch (an uncaught `KeyError`). -/
theorem headLogic_no_wildcard :
    dget headLogic "*" = none ∧ resolveLogic headLogic "unknownField" = none := by
  decide

/-- C7 amended: the `maxp`, `hhea`, `OS/2` and `post` policies contain a
wildcard entry, so their combinator lookup never fails for any field
name; the `head` policy has no wildcard, and its lookup succeeds exactly
for the field names of the fixed `head` schema (plus the implicitly
added `tableTag`). -/
theorem mergePolicies_wildcard :
    (∀ key : String, (resolveLogic maxpLogic key).isSome) ∧
    (∀ key : String, (resolveLogic hheaLogic key).isSome) ∧
    (∀ key : String, (resolveLogic os2Logic key).isSome) ∧
    (∀ key : String, (resolveLogic postLogic key).isSome) ∧
    dget headLogic "*" = none ∧
    (∀ key : String, (resolveLogic headLogic key).isSome ↔ key ∈ headFields) := by
  refine ⟨resolveLogic_isSome_of_wildcard maxpLogic (by decide),
    resolveLogic_isSome_of_wildcard hheaLogic (by decide),
    resolveLogic_isSome_of_wildcard os2Logic (by decide),
    resolveLogic_isSome_of_wildcard postLogic (by decide),
    by decide, ?_⟩
  intro key
  have h1 : dget (mergeKeysLogic headLogic) "*" = none := by decide
  have h2 : (mergeKeysLogic headLogic).map Prod.fst = headFields := by decide
  unfold resolveLogic
  rw [h1, oOr_none_right, dget_isSome_iff_mem_keys, h2]

/-! ## Glyph-outline merger (`glyf` table `merge`)

The merger iterates over each source table's glyphs and calls
`g.removeHinting()` and, for composites, `g.expand(table)` on the
source glyph objects themselves before `self.glyphs.update`.

Modelled from the spec: the glyph record and the two operations are in
the external `ttLib` codec, not in this tree.  Per the spec, stripping
removes the embedded hinting instructions, and expansion materializes a
composite's component names; both act on the source Font's glyph
objects in place, which the explicit state passing makes visible. -/

structure Glyph where
  hinted : Bool
  composite : Bool
  expanded : Bool
deriving DecidableEq

/-- `g.removeHinting()`: strips the embedded instructions in place. -/
def removeHinting (g : Glyph) : Glyph := { g with hinted := false }

/-- `g.expand(table)`: loads composite component glyph names in place. -/
def expandGlyph (g : Glyph) : Glyph := { g with expanded := true }

/-- The per-glyph body of the `glyf` merge loop. -/
def processGlyph (g : Glyph) : Glyph :=
  let g2 := removeHinting g
  if g2.composite then expandGlyph g2 else g2

structure GlyfTable where
  glyphs : Dict String Glyph
deriving DecidableEq

/-- One source table after the loop mutated its glyphs. -/
def processGlyfTable (t : GlyfTable) : GlyfTable :=
  { glyphs := t.glyphs.map fun p => (p.1, processGlyph p.2) }

/-- The `glyf` merge, with the in-place mutation of the source tables
made explicit: returns the source tables as they are after the merge,
and the fresh output table. -/
def mergeGlyf (ts : List GlyfTable) : List GlyfTable × GlyfTable :=
  (ts.map processGlyfTable,
   { glyphs := (ts.map processGlyfTable).foldl
       (fun acc t => dictUpdate acc t.glyphs) [] })

def glyfWitnessGlyph : Glyph :=
  { hinted := true, composite := false, expanded := false }

def glyfWitnessTables : List GlyfTable :=
  [{ glyphs := [("a#0", glyfWitnessGlyph)] }]

/-- C8 counterexample: the glyph-outline merger does not leave the
source tables unchanged: on a source containing a hinted glyph, the
source tables after the merge differ from the ones passed in (the
glyph's embedded instructions were stripped in place). -/
theorem mergeGlyf_mutates_sources :
    (mergeGlyf glyfWitnessTables).1 ≠ glyfWitnessTables := by
  decide

/-- A map that fixes every element of a list is the identity on it. -/
theorem map_eq_id_of_mem {α : Type} (l : List α) {f : α → α}
    (h : ∀ a ∈ l, f a = a) : l.map f = l := by
  induction l with
  | nil => rfl
  | cons a l ih =>
    rw [List.map_cons, h a (List.mem_cons_self _ _),
      ih fun a ha => h a (List.mem_cons_of_mem _ ha)]

/-- C8 amended: during a merge the table mergers leave their source
tables unchanged except the glyph-outline merger, which strips
embedded hinting instructions from every source glyph and expands
composite source glyphs in place; a source table whose glyphs carry no
hinting and no composites is returned unchanged, glyph names are never
touched, every output glyph is hint-free, and the fresh output table is
the union of the processed source tables' glyph dicts. -/
theorem mergeGlyf_frame (ts : List GlyfTable) :
    (mergeGlyf ts).1 = ts.map processGlyfTable ∧
    (∀ t : GlyfTable,
      (processGlyfTable t).glyphs.map Prod.fst = t.glyphs.map Prod.fst) ∧
    (∀ t : GlyfTable,
      (∀ p ∈ t.glyphs, p.2.hinted = false ∧ p.2.composite = false) →
      processGlyfTable t = t) ∧
    (∀ p ∈ (mergeGlyf ts).2.glyphs, p.2.hinted = false) ∧
    (mergeGlyf ts).2.glyphs = ((mergeGlyf ts).1.map fun t => t.glyphs).flatten := by
  refine ⟨rfl, ?_, ?_, ?_, ?_⟩
  · intro t
    rw [processGlyfTable, List.map_map]
    rfl
  · intro t h
    rw [processGlyfTable]
    have hmap : t.glyphs.map (fun p => (p.1, processGlyph p.2)) = t.glyphs := by
      refine map_eq_id_of_mem t.glyphs ?_
      intro p hp
      obtain ⟨hh, hc⟩ := h p hp
      obtain ⟨k, g⟩ := p
      obtain ⟨gh, gc, ge⟩ := g
      simp only at hh hc
      subst hh
      subst hc
      rfl
    rw [hmap]
  · intro p hp
    have hout : (mergeGlyf ts).2.glyphs
        = ((ts.map processGlyfTable).map fun t : GlyfTable => t.glyphs).flatten := by
      show ((ts.map processGlyfTable).foldl (fun acc t => dictUpdate acc t.glyphs) [])
          = ((ts.map processGlyfTable).map fun t : GlyfTable => t.glyphs).flatten
      rw [foldl_dictUpdate_map (fun t : GlyfTable => t.glyphs)
        (ts.map processGlyfTable) [], List.nil_append]
    rw [hout] at hp
    obtain ⟨d, hd, hpd⟩ := List.mem_flatten.mp hp
    obtain ⟨t', ht', rfl⟩ := List.mem_map.mp hd
    obtain ⟨t, ht, rfl⟩ := List.mem_map.mp ht'
    obtain ⟨q, hq, rfl⟩ := List.mem_map.mp hpd
    show (processGlyph q.2).hinted = false
    rw [processGlyph]
    split <;> rfl
  · show ((ts.map processGlyfTable).foldl (fun acc t => dictUpdate acc t.glyphs) [])
        = ((ts.map processGlyfTable).map fun t : GlyfTable => t.glyphs).flatten
    rw [foldl_dictUpdate_map (fun t : GlyfTable => t.glyphs)
      (ts.map processGlyfTable) [], List.nil_append]

def glyfWitnessPlain : GlyfTable :=
  { glyphs := [("b#1", { hinted := false, composite := false, expanded := false })] }

def glyfWitnessOut : Glyph :=
  { hinted := false, composite := false, expanded := false }

theorem mergeGlyf_frame_witness :
    (mergeGlyf glyfWitnessTables).1 = glyfWitnessTables.map processGlyfTable ∧
    processGlyfTable glyfWitnessPlain = glyfWitnessPlain ∧
    (("a#0", glyfWitnessOut) : String × Glyph).2.hinted = false := by
  have happ := mergeGlyf_frame glyfWitnessTables
  refine ⟨happ.1, happ.2.2.1 glyfWitnessPlain (by decide), ?_⟩
  exact happ.2.2.2.1 ("a#0", glyfWitnessOut) (by decide)

end FontMerge
